import Mathlib

/-
Verification of the rs-poker simulation engine's specification.

The repository's own files under examples/ only call into the engine
(GameState, Hand::rank, MonteCarloGame, HoldemSimulation); the engine
bodies are not part of the provided sources.  Following the rules for
code missing from src/, every engine definition below is modelled from
the specification's words (spec.md), and each such definition says so
in its doc comment.  Event payload shapes (FailedAction carrying both
the attempted and the substituted action, Award carrying an optional
rank) are taken from the fields the example files read.
-/

namespace RsPoker

/-- Modelled from the spec: a Card is rank (13 values) x suit (4 values),
an immutable value type (spec.md section 3).  Rank 0 is Two, rank 12 is Ace. -/
structure Card where
  rank : Fin 13
  suit : Fin 4
  deriving DecidableEq, Repr

/-- Canonical injective key for a card: rank-major, suit-minor. -/
def cardKey (c : Card) : Nat := c.rank.val * 4 + c.suit.val

/-- Inverse of `cardKey` on the range 0..51. -/
def cardOfKey (n : Nat) : Card :=
  ⟨⟨n / 4 % 13, Nat.mod_lt _ (by decide)⟩, ⟨n % 4, Nat.mod_lt _ (by decide)⟩⟩

/-- Helper to build a card from plain naturals. -/
def mkCard (r s : Nat) : Card :=
  ⟨⟨r % 13, Nat.mod_lt _ (by decide)⟩, ⟨s % 4, Nat.mod_lt _ (by decide)⟩⟩

/-- Canonicalise a hand: sort the cards by their injective key, so any
two permutations of the same card multiset map to the same list. -/
def sortCards (cs : List Card) : List Card :=
  (List.insertionSort (fun a b => a ≤ b) (cs.map cardKey)).map cardOfKey

/-- Sort a list of naturals in descending order. -/
def sortDesc (l : List Nat) : List Nat :=
  List.insertionSort (fun a b => b ≤ a) l

/-- Pack a tiebreak tuple (at most five base-13 digits) into a single
natural number below 13^5, most significant digit first. -/
def enc5 (l : List Nat) : Nat :=
  (l.foldl (fun a r => a * 13 + r % 13) 0) % 13 ^ 5

/-- Modelled from the spec: flush test — all cards share one suit. -/
def isFlush (cs : List Card) : Bool :=
  match cs with
  | [] => false
  | c :: rest => rest.all (fun d => d.suit = c.suit)

/-- Modelled from the spec: straight detection on five distinct ranks
sorted descending, including the ace-low straight A-2-3-4-5 whose high
card is the Five (rank value 3) (spec.md section 4.1). -/
def straightHigh (rs : List Nat) : Option Nat :=
  match rs with
  | [a, b, c, d, e] =>
    if a = b + 1 ∧ b = c + 1 ∧ c = d + 1 ∧ d = e + 1 then some a
    else if a = 12 ∧ b = 3 ∧ c = 2 ∧ d = 1 ∧ e = 0 then some 3
    else none
  | _ => none

/-- Count/rank pairs for each rank value present in the list. -/
def rankCounts (rs : List Nat) : List (Nat × Nat) :=
  (List.range 13).filterMap (fun r =>
    let c := rs.count r
    if c = 0 then none else some (c, r))

/-- Sort count/rank pairs descending by count, then by rank. -/
def sortPairsDesc (ps : List (Nat × Nat)) : List (Nat × Nat) :=
  List.insertionSort (fun p q => q.1 * 13 + q.2 ≤ p.1 * 13 + p.2) ps

/-- Flatten count/rank pairs into the tiebreak tuple: each rank repeated
by its multiplicity, most frequent (then highest) first. -/
def groupedRanks (ps : List (Nat × Nat)) : List Nat :=
  ps.foldr (fun p acc => List.replicate p.1 p.2 ++ acc) []

/-- Category codes in reference strength order (spec.md sections 3, 8):
high card 0, pair 1, two pair 2, trips 3, straight 4, flush 5,
full house 6, quads 7, straight flush 8. -/
def catHighCard : Nat := 0
def catPair : Nat := 1
def catTwoPair : Nat := 2
def catTrips : Nat := 3
def catStraight : Nat := 4
def catFlush : Nat := 5
def catFullHouse : Nat := 6
def catQuads : Nat := 7
def catStraightFlush : Nat := 8

/-- Modelled from the spec: rank a five-card hand into an ordered
category plus tiebreak tuple, packed as category * 13^5 + tiebreaks so
that the natural-number order is the hand-strength order (spec.md
section 4.1: straight flush supersedes flush and straight; ties resolve
by comparing full tiebreak tuples). -/
def rank5 (cs : List Card) : Nat :=
  let sorted := sortCards cs
  let rs := sortDesc (sorted.map (fun c => c.rank.val))
  let ps := sortPairsDesc (rankCounts rs)
  let shape := ps.map (fun p => p.1)
  let grouped := groupedRanks ps
  let catTb : Nat × Nat :=
    match straightHigh rs, isFlush sorted with
    | some h, true => (catStraightFlush, enc5 [h, 0, 0, 0, 0])
    | sh, fl =>
      if shape = [4, 1] then (catQuads, enc5 grouped)
      else if shape = [3, 2] then (catFullHouse, enc5 grouped)
      else if fl then (catFlush, enc5 rs)
      else
        match sh with
        | some h => (catStraight, enc5 [h, 0, 0, 0, 0])
        | none =>
          if shape = [3, 1, 1] then (catTrips, enc5 grouped)
          else if shape = [2, 2, 1] then (catTwoPair, enc5 grouped)
          else if shape = [2, 1, 1, 1] then (catPair, enc5 grouped)
          else (catHighCard, enc5 rs)
  catTb.1 * 13 ^ 5 + catTb.2

/-- A Hand is the multiset of cards held by one entity, represented as a
list whose order is irrelevant (spec.md section 3). -/
abbrev Hand := List Card

/-- Modelled from the spec: `rank` on an unordered set of five to seven
cards — the strength of the best five-card subset (spec.md section 4.1).
The input is canonicalised first, so the result is independent of the
order in which cards were inserted. -/
def Hand.rank (cs : Hand) : Nat :=
  ((List.sublistsLen 5 (sortCards cs)).map rank5).foldr Nat.max 0

/-- The category component of a packed hand rank. -/
def handCategory (r : Nat) : Nat := r / 13 ^ 5

/-- The tiebreak component of a packed hand rank. -/
def handTiebreak (r : Nat) : Nat := r % 13 ^ 5

/-! ## Game state, actions and the betting engine

Monetary amounts are modelled as exact rationals; the source interface
uses fractional (floating-point) chip amounts, and the rationals model
the exact arithmetic the spec's conservation statements quantify over. -/

/-- Chip amounts. -/
abbrev Chips := Rat

/-- Computable minimum on chip amounts. -/
def cmin (a b : Chips) : Chips := if a ≤ b then a else b

/-- Computable maximum on chip amounts. -/
def cmax (a b : Chips) : Chips := if a ≤ b then b else a

/-- Modelled from the spec: per-player status within a hand
(spec.md section 3). -/
inductive PlayerStatus where
  | Active
  | Folded
  | AllIn
  | SittingOut
  deriving DecidableEq, Repr

/-- Modelled from the spec: round progression (spec.md section 3). -/
inductive Round where
  | Starting
  | Preflop
  | Flop
  | Turn
  | River
  | Showdown
  | Complete
  deriving DecidableEq, Repr

/-- Modelled from the spec: the decision a player makes
(spec.md section 3). -/
inductive AgentAction where
  | Fold
  | Call
  | Bet (amount : Chips)
  | AllIn
  deriving DecidableEq, Repr

/-- Modelled from the spec: the event-stream payload
(spec.md section 3; field shapes follow what the example files read:
FailedAction carries both the attempted action and the substituted
result, Award carries the award amount, the total pot and an optional
hand rank). -/
inductive Action where
  | GameStart
  | PlayerSit (idx : Nat) (playerStack : Chips)
  | RoundAdvance (round : Round)
  | ForcedBet (idx : Nat) (bet : Chips)
  | PlayedAction (idx : Nat) (action : AgentAction)
  | FailedAction (attempted : AgentAction) (idx : Nat) (substituted : AgentAction)
  | Award (idx : Nat) (awardAmount : Chips) (totalPot : Chips) (rank : Option Nat)
  deriving DecidableEq, Repr

/-- Modelled from the spec: GameState holds stacks, bets-this-round,
pots, the running player-winnings accumulator, per-player status,
dealer index and the current round (spec.md section 3).
`committedTotal` is bookkeeping for the total amount ever moved from
bets into pots during the hand, used to state the spec's
"sum of player_winnings equals the total contributed to pots". -/
structure GameState where
  «stacks» : List Chips
  playerBet : List Chips
  pots : List Chips
  playerWinnings : List Chips
  playerStatus : List PlayerStatus
  dealerIdx : Nat
  round : Round
  committedTotal : Chips
  deriving DecidableEq, Repr

/-- The conserved chip quantity: all stacks plus all pots plus all
bets-this-round (spec.md sections 3 and 8). -/
def chipTotal (s : GameState) : Chips :=
  s.stacks.sum + s.playerBet.sum + s.pots.sum

/-- Add `x` to entry `i` of a chips list (identity when out of range). -/
def updAdd (l : List Chips) (i : Nat) (x : Chips) : List Chips :=
  l.set i (l.getD i 0 + x)

/-- The stack of player `i`. -/
def stackOf (s : GameState) (i : Nat) : Chips := s.stacks.getD i 0

/-- The amount player `i` has committed this round. -/
def betOf (s : GameState) (i : Nat) : Chips := s.playerBet.getD i 0

/-- The outstanding bet to call this round. -/
def currentBet (s : GameState) : Chips := s.playerBet.foldr cmax 0

/-- Modelled from the spec: the minimum a bet from player `i` must
bring their round commitment to reach (the outstanding bet to call;
spec.md sections 3 and 4.2). -/
def minLegalBet (s : GameState) (i : Nat) : Chips := currentBet s - betOf s i

/-- Modelled from the spec: legality of an agent action — a Bet must be
at least the minimum legal amount and at most the player's remaining
stack; Fold, Call and AllIn are always legal because the engine caps
them by the stack (spec.md sections 3 and 4.2). -/
def legalAction (s : GameState) (i : Nat) (a : AgentAction) : Bool :=
  match a with
  | .Fold => true
  | .Call => true
  | .AllIn => true
  | .Bet x => decide (minLegalBet s i ≤ x) && decide (x ≤ stackOf s i)

/-- Mark player `i` folded. -/
def applyFold (s : GameState) (i : Nat) : GameState :=
  { s with playerStatus := s.playerStatus.set i .Folded }

/-- Modelled from the spec: move chips from the stack of player `i`
into their bets-this-round, capped by the remaining stack (all-in for
less when stack-constrained; spec.md section 4.2). -/
def moveToBet (s : GameState) (i : Nat) (x : Chips) : GameState :=
  if i < s.stacks.length ∧ i < s.playerBet.length then
    let amt := cmin x (stackOf s i)
    { s with
      «stacks» := updAdd s.stacks i (-amt)
      playerBet := updAdd s.playerBet i amt
      playerStatus :=
        if amt = stackOf s i then s.playerStatus.set i .AllIn else s.playerStatus }
  else s

/-- Modelled from the spec: apply an agent action — a legal action is
applied to the state and mirrored as a PlayedAction event; an illegal
action is overridden to Fold, the status becomes Folded, and one
FailedAction event records both the attempted and the substituted
action (spec.md sections 4.2 and 7). -/
def applyAgentAction (s : GameState) (i : Nat) (a : AgentAction) : GameState × Action :=
  if legalAction s i a then
    match a with
    | .Fold => (applyFold s i, .PlayedAction i .Fold)
    | .Call => (moveToBet s i (minLegalBet s i), .PlayedAction i .Call)
    | .Bet x => (moveToBet s i x, .PlayedAction i (.Bet x))
    | .AllIn => (moveToBet s i (stackOf s i), .PlayedAction i .AllIn)
  else
    (applyFold s i, .FailedAction a i .Fold)

/-- Modelled from the spec: the chip-moving steps the betting round
driver and the hand orchestrator apply to GameState (spec.md
sections 4.2 and 4.3): an agent action, a forced bet (blind or ante),
collecting the round's bets into the pots, awarding the pots to a
player, and advancing the round. -/
inductive EngineStep where
  | agentAct (i : Nat) (a : AgentAction)
  | forcedBet (i : Nat) (x : Chips)
  | collectRound
  | award (i : Nat)
  | advanceRound (r : Round)

/-- Modelled from the spec: apply one engine step to the game state. -/
def applyStep (st : EngineStep) (s : GameState) : GameState :=
  match st with
  | .agentAct i a => (applyAgentAction s i a).1
  | .forcedBet i x => moveToBet s i x
  | .collectRound =>
    { s with
      pots := s.pots ++ [s.playerBet.sum]
      playerBet := s.playerBet.map (fun _ => 0)
      committedTotal := s.committedTotal + s.playerBet.sum }
  | .award i =>
    if i < s.stacks.length ∧ i < s.playerWinnings.length then
      { s with
        «stacks» := updAdd s.stacks i s.pots.sum
        playerWinnings := updAdd s.playerWinnings i s.pots.sum
        pots := [] }
    else s
  | .advanceRound r => { s with round := r }

/-- Run a sequence of engine steps. -/
def runSteps (steps : List EngineStep) (s : GameState) : GameState :=
  steps.foldl (fun t st => applyStep st t) s

/-- The winnings-accounting invariant: winnings paid out so far plus
pots still on the table equal the total ever contributed to pots. -/
def winInv (s : GameState) : Prop :=
  s.playerWinnings.sum + s.pots.sum = s.committedTotal

/-! ## Win by fold -/

/-- A player still contests the hand unless they folded. -/
def notFolded (st : PlayerStatus) : Bool := st ≠ .Folded

/-- Number of players who have not folded. -/
def livePlayers (s : GameState) : Nat :=
  (s.playerStatus.filter notFolded).length

/-- Everything on the table: pots already collected plus this round's
outstanding bets. -/
def potTotal (s : GameState) : Chips := s.pots.sum + s.playerBet.sum

/-- Modelled from the spec: when only one player has not folded the
hand ends immediately — the remaining bets are collected and the whole
pot is awarded to that player with no showdown evaluation, so the
Award event carries no hand rank (spec.md sections 4.2 and 8). -/
def endByFold (s : GameState) : GameState × Action :=
  let i := s.playerStatus.findIdx notFolded
  let amt := potTotal s
  ({ s with
      «stacks» := updAdd s.stacks i amt
      playerWinnings := updAdd s.playerWinnings i amt
      playerBet := s.playerBet.map (fun _ => 0)
      pots := []
      committedTotal := s.committedTotal + s.playerBet.sum
      round := .Complete },
   .Award i amt (potTotal s) none)

/-- Modelled from the spec: the orchestrator's end-of-hand check — if
only one player has not folded, finish the hand by `endByFold`;
otherwise the hand goes on (spec.md section 4.2 edge case). -/
def orchestratorCheck (s : GameState) : Option (GameState × Action) :=
  if livePlayers s = 1 then some (endByFold s) else none

/-! ## Construction validation -/

/-- Modelled from the spec: the construction-error taxonomy
(spec.md section 7). -/
inductive ConfigError where
  | emptyPlayers
  | negativeStack
  | negativeBlind
  | negativeAnte
  | dealerOutOfRange
  deriving DecidableEq, Repr

/-- Modelled from the spec: `GameState::new_starting` validates the
configuration at build time — empty player list, negative stack, blind
or ante, or a dealer index not below the player count fail fast with an
error and no partial GameState is produced (spec.md sections 6 and 7). -/
def GameState.new_starting (stacks0 : List Chips) (bigBlind smallBlind ante : Chips)
    (dealerIdx : Nat) : Except ConfigError GameState :=
  if stacks0.isEmpty then .error .emptyPlayers
  else if stacks0.any (fun x => x < 0) then .error .negativeStack
  else if bigBlind < 0 ∨ smallBlind < 0 then .error .negativeBlind
  else if ante < 0 then .error .negativeAnte
  else if stacks0.length ≤ dealerIdx then .error .dealerOutOfRange
  else .ok
    { «stacks» := stacks0
      playerBet := stacks0.map (fun _ => 0)
      pots := []
      playerWinnings := stacks0.map (fun _ => 0)
      playerStatus := stacks0.map (fun _ => .Active)
      dealerIdx := dealerIdx
      round := .Starting
      committedTotal := 0 }

/-! ## Pot resolution

The pot-resolution algorithm works on the totals each player committed
over the whole hand.  Amounts here are whole chips (naturals) so the
spec's explicit integer remainder policy for split pots is meaningful. -/

/-- One player's contribution record at showdown: total committed over
the hand, whether they folded, and their showdown hand rank. -/
structure Contrib where
  committed : Nat
  folded : Bool
  rankVal : Nat
  deriving DecidableEq, Repr, Inhabited

/-- Modelled from the spec: the distinct positive commitment levels,
sorted ascending (spec.md section 4.3). -/
def levelsOf (ps : List Contrib) : List Nat :=
  List.insertionSort (fun a b => a ≤ b)
    (((ps.map (fun p => p.committed)).filter (fun c => 0 < c)).dedup)

/-- Number of players committed at least `l`. -/
def countAtLeast (ps : List Contrib) (l : Nat) : Nat :=
  ps.countP (fun p => l ≤ p.committed)

/-- Modelled from the spec: the players eligible for the pot closing at
level `l` — exactly the non-folded players committed at least that much
(spec.md sections 3 and 4.3). -/
def eligibleAt (ps : List Contrib) (l : Nat) : List Nat :=
  (List.range ps.length).filter
    (fun i => decide (l ≤ (ps.getD i default).committed) &&
              !(ps.getD i default).folded)

/-- A pot: its closing commitment level, its amount, and the players
eligible to contest it. -/
structure Pot where
  level : Nat
  amount : Nat
  eligible : List Nat
  deriving DecidableEq, Repr

/-- Modelled from the spec: walk the commitment levels ascending; for
each level the pot holds the incremental amount (level minus previous
level) contributed by every player committed at least that much
(spec.md section 4.3). -/
def potsGo (ps : List Contrib) (prev : Nat) : List Nat → List Pot
  | [] => []
  | l :: rest =>
    ⟨l, (l - prev) * countAtLeast ps l, eligibleAt ps l⟩ :: potsGo ps l rest

/-- Modelled from the spec: build main pot and side pots from the
players' total commitments (spec.md section 4.3). -/
def buildPots (ps : List Contrib) : List Pot := potsGo ps 0 (levelsOf ps)

/-- The best showdown rank among the given player indices. -/
def maxRankOf (ps : List Contrib) (idxs : List Nat) : Nat :=
  (idxs.map (fun i => (ps.getD i default).rankVal)).foldr Nat.max 0

/-- Modelled from the spec: the winners of a pot — the eligible players
whose hand rank is the highest among the pot's eligible set (spec.md
section 4.3). -/
def potWinners (ps : List Contrib) (pot : Pot) : List Nat :=
  pot.eligible.filter (fun i => (ps.getD i default).rankVal = maxRankOf ps pot.eligible)

/-- Modelled from the spec: split a pot equally among its winners; the
deterministic remainder policy gives any indivisible remainder to the
first winner in seat order (spec.md sections 4.3 and 9). -/
def awardShares (ps : List Contrib) (pot : Pot) : List (Nat × Nat) :=
  match potWinners ps pot with
  | [] => []
  | w :: ws =>
    let share := pot.amount / (ws.length + 1)
    let rem := pot.amount % (ws.length + 1)
    (w, share + rem) :: ws.map (fun i => (i, share))

/-! ## Monte Carlo equity estimator -/

/-- Modelled from the spec: estimator error taxonomy — degenerate
query (fewer than two hands) and card-pool exhaustion (spec.md
sections 4.4 and 7). -/
inductive MCError where
  | tooFewHands
  | notEnoughCards
  deriving DecidableEq, Repr

/-- Modelled from the spec: the distinct cards already known across all
hands' hole cards and the community board (spec.md section 4.4: the
unseen pool is 52 cards minus all known cards across hands and board). -/
def knownCards (hands : List (List Card)) (board : List Card) : List Card :=
  (board ++ hands.foldr (fun h acc => h ++ acc) []).dedup

/-- Modelled from the spec: the cards one iteration must draw without
replacement — complete the community board to five, plus complete every
hand with fewer than two hole cards (spec.md section 4.4), so the
per-hand hole deficits are summed on top of the board deficit. -/
def neededCards (hands : List (List Card)) (board : List Card) : Nat :=
  (5 - board.length) + (hands.map (fun h => 2 - h.length)).sum

/-- Modelled from the spec: a Monte Carlo equity game over at least two
completable hands (known hole cards per hand) and a partial community
board. -/
structure MonteCarloGame where
  hands : List (List Card)
  board : List Card
  deriving Repr

/-- Modelled from the spec: `MonteCarloGame::new` is fallible — fewer
than two hands, or too few unseen cards to complete the board to five
and every short hand to two hole cards, fail fast with an error and no
game is produced (spec.md sections 4.4 and 7; the example drivers
unwrap the result). -/
def MonteCarloGame.new (hands : List (List Card)) (board : List Card) :
    Except MCError MonteCarloGame :=
  if hands.length < 2 then .error .tooFewHands
  else if 52 - (knownCards hands board).length < neededCards hands board then
    .error .notEnoughCards
  else .ok ⟨hands, board⟩

/-- Modelled from the spec: the credit one iteration distributes, given
the evaluated rank of each completed hand — the tied leaders split one
unit of credit equally, everyone else gets zero (spec.md section 4.4). -/
def creditsOf (results : List Nat) : List Rat :=
  let m := results.foldr Nat.max 0
  let k := results.countP (fun r => r = m)
  results.map (fun r => if r = m then (1 : Rat) / k else 0)

/-- Credit hand `i` receives from one iteration. -/
def creditAt (results : List Nat) (i : Nat) : Rat :=
  (creditsOf results).getD i 0

/-- Modelled from the spec: the equity reported for hand `i` after all
iterations — its accumulated credit divided by the iteration count
(spec.md section 4.4). -/
def equityOf (iters : List (List Nat)) (i : Nat) : Rat :=
  ((iters.map (fun res => creditAt res i)).sum) / iters.length

/-- Iterations hand `i` won outright (full credit). -/
def soloWins (iters : List (List Nat)) (i : Nat) : Nat :=
  iters.countP (fun res => creditAt res i = 1)

/-- Total tie credit of hand `i`: the sum over tied iterations of one
over the number of tied leaders. -/
def tieCredit (iters : List (List Nat)) (i : Nat) : Rat :=
  ((iters.filter (fun res => creditAt res i ≠ 1)).map (fun res => creditAt res i)).sum

/-! ## Concrete seven-card sets, one per reference category
(rank value 0 is Two, 12 is Ace; junk cards chosen not to upgrade). -/

/-- Straight flush: 4-5-6-7-8 of one suit plus junk. -/
def sfSeven : Hand :=
  [mkCard 2 0, mkCard 3 0, mkCard 4 0, mkCard 5 0, mkCard 6 0, mkCard 11 1, mkCard 0 2]

/-- Four Jacks plus junk. -/
def quadsSeven : Hand :=
  [mkCard 9 0, mkCard 9 1, mkCard 9 2, mkCard 9 3, mkCard 5 1, mkCard 3 2, mkCard 1 3]

/-- Jacks full of sevens plus junk. -/
def fullHouseSeven : Hand :=
  [mkCard 9 0, mkCard 9 1, mkCard 9 2, mkCard 5 0, mkCard 5 1, mkCard 3 2, mkCard 1 3]

/-- King-high flush plus junk. -/
def flushSeven : Hand :=
  [mkCard 1 2, mkCard 4 2, mkCard 6 2, mkCard 9 2, mkCard 11 2, mkCard 3 0, mkCard 0 1]

/-- Ten-high straight, mixed suits, plus junk. -/
def straightSeven : Hand :=
  [mkCard 4 0, mkCard 5 1, mkCard 6 0, mkCard 7 1, mkCard 8 2, mkCard 11 3, mkCard 0 3]

/-- Three Jacks plus junk. -/
def tripsSeven : Hand :=
  [mkCard 9 0, mkCard 9 1, mkCard 9 2, mkCard 5 0, mkCard 3 1, mkCard 1 2, mkCard 0 3]

/-- Jacks and sevens plus junk. -/
def twoPairSeven : Hand :=
  [mkCard 9 0, mkCard 9 1, mkCard 5 0, mkCard 5 1, mkCard 11 2, mkCard 3 2, mkCard 1 3]

/-- A pair of Jacks plus junk. -/
def pairSeven : Hand :=
  [mkCard 9 0, mkCard 9 1, mkCard 5 0, mkCard 3 1, mkCard 1 2, mkCard 11 2, mkCard 6 3]

/-- Ace-high card soup: no pair, no straight, no flush. -/
def highCardSeven : Hand :=
  [mkCard 0 0, mkCard 2 1, mkCard 4 2, mkCard 6 3, mkCard 8 0, mkCard 10 1, mkCard 12 2]

/-- Seven cards whose best hand is the ace-low straight A-2-3-4-5. -/
def aceLowSeven : Hand :=
  [mkCard 12 0, mkCard 0 1, mkCard 1 2, mkCard 2 3, mkCard 3 0, mkCard 7 1, mkCard 9 2]

/-- Seven cards whose best hand is the six-high straight 2-3-4-5-6. -/
def sixHighStraightSeven : Hand :=
  [mkCard 0 0, mkCard 1 1, mkCard 2 2, mkCard 3 3, mkCard 4 0, mkCard 7 1, mkCard 9 2]

/-- Two pair, kings over queens, deuce kicker. -/
def twoPairKKQQ2 : Hand :=
  [mkCard 11 0, mkCard 11 1, mkCard 10 0, mkCard 10 1, mkCard 0 2]

/-- Two pair, kings over jacks, ace kicker. -/
def twoPairKKJJA : Hand :=
  [mkCard 11 2, mkCard 11 3, mkCard 9 0, mkCard 9 1, mkCard 12 0]

/-- A pair of jacks with an ace kicker. -/
def pairJacksAce : Hand :=
  [mkCard 9 0, mkCard 9 1, mkCard 12 2, mkCard 5 0, mkCard 0 1]

/-- A pair of jacks with a king kicker. -/
def pairJacksKing : Hand :=
  [mkCard 9 2, mkCard 9 3, mkCard 11 2, mkCard 5 1, mkCard 0 2]

/-! ## A concrete two-player hand used by the witnesses -/

/-- A two-player starting state: stacks 200/200, preflop. -/
def demoState : GameState :=
  { «stacks» := [200, 200]
    playerBet := [0, 0]
    pots := []
    playerWinnings := [0, 0]
    playerStatus := [.Active, .Active]
    dealerIdx := 0
    round := .Preflop
    committedTotal := 0 }

/-- Blinds, an illegal oversized bet (recovered as a fold), collection
and award: a hand completed end to end. -/
def demoSteps : List EngineStep :=
  [.forcedBet 0 5, .forcedBet 1 10, .agentAct 0 (.Bet 1000), .collectRound, .award 1]

/-- A state in which everyone but player 1 has folded, with a pot of 30
and an outstanding bet of 10 on the table. -/
def demoWinState : GameState :=
  { «stacks» := [100, 50]
    playerBet := [10, 0]
    pots := [30]
    playerWinnings := [0, 0]
    playerStatus := [.Folded, .Active]
    dealerIdx := 0
    round := .River
    committedTotal := 30 }

/-- Twenty-four one-card hands (all cards distinct): completing each to
two hole cards plus an empty board to five needs 29 draws, but only 28
unseen cards remain — a card-pool-exhaustion query. -/
def exhaustHands : List (List Card) :=
  (List.range 24).map (fun n => [cardOfKey n])

/-! ## List helper lemmas -/

theorem getD_set_self {α : Type} (l : List α) (i : Nat) (v d : α) (h : i < l.length) :
    (l.set i v).getD i d = v := by
  induction l generalizing i with
  | nil => simp at h
  | cons a t ih =>
    cases i with
    | zero => simp
    | succ j =>
      have hj : j < t.length := by
        simp only [List.length_cons] at h
        omega
      simpa using ih j hj

theorem sum_updAdd (l : List Chips) (i : Nat) (x : Chips) (h : i < l.length) :
    (updAdd l i x).sum = l.sum + x := by
  induction l generalizing i with
  | nil => simp at h
  | cons a t ih =>
    cases i with
    | zero => simp [updAdd]; ring
    | succ j =>
      have hj : j < t.length := by simpa using h
      have ht := ih j hj
      simp only [updAdd, List.getD_cons_succ, List.set_cons_succ, List.sum_cons] at ht ⊢
      rw [ht]; ring

theorem getD_updAdd_self (l : List Chips) (i : Nat) (x : Chips) (h : i < l.length) :
    (updAdd l i x).getD i 0 = l.getD i 0 + x := by
  unfold updAdd
  rw [getD_set_self _ _ _ _ h]

theorem sum_map_zero (l : List Chips) : (l.map (fun _ => (0 : Chips))).sum = 0 := by
  induction l with
  | nil => rfl
  | cons a t ih =>
    simp only [List.map_cons, List.sum_cons, ih]
    ring

/-! ## Chip conservation lemmas -/

theorem chipTotal_applyFold (s : GameState) (i : Nat) :
    chipTotal (applyFold s i) = chipTotal s := rfl

theorem chipTotal_moveToBet (s : GameState) (i : Nat) (x : Chips) :
    chipTotal (moveToBet s i x) = chipTotal s := by
  unfold moveToBet
  split
  · next h =>
    simp only [chipTotal]
    rw [sum_updAdd _ _ _ h.1, sum_updAdd _ _ _ h.2]
    ring
  · rfl

theorem chipTotal_applyAgentAction (s : GameState) (i : Nat) (a : AgentAction) :
    chipTotal (applyAgentAction s i a).1 = chipTotal s := by
  unfold applyAgentAction
  split
  · cases a <;> simp [chipTotal_moveToBet, chipTotal_applyFold]
  · simp [chipTotal_applyFold]

theorem chipTotal_applyStep (st : EngineStep) (s : GameState) :
    chipTotal (applyStep st s) = chipTotal s := by
  cases st with
  | agentAct i a => exact chipTotal_applyAgentAction s i a
  | forcedBet i x => exact chipTotal_moveToBet s i x
  | collectRound =>
    simp only [applyStep, chipTotal, List.sum_append, List.sum_cons, List.sum_nil,
      sum_map_zero]
    ring
  | award i =>
    simp only [applyStep]
    split
    · next h =>
      simp only [chipTotal, List.sum_nil]
      rw [sum_updAdd _ _ _ h.1]
      ring
    · rfl
  | advanceRound r => rfl

theorem chipTotal_runSteps (steps : List EngineStep) (s : GameState) :
    chipTotal (runSteps steps s) = chipTotal s := by
  induction steps generalizing s with
  | nil => rfl
  | cons st rest ih =>
    have h1 : runSteps (st :: rest) s = runSteps rest (applyStep st s) := rfl
    rw [h1, ih, chipTotal_applyStep]

theorem winInv_applyStep (st : EngineStep) (s : GameState) (h : winInv s) :
    winInv (applyStep st s) := by
  cases st with
  | agentAct i a =>
    simp only [winInv, applyStep, applyAgentAction] at *
    split
    · cases a <;> (try exact h) <;> (simp only [moveToBet]; split <;> exact h)
    · exact h
  | forcedBet i x =>
    simp only [winInv, applyStep, moveToBet] at *
    split <;> exact h
  | collectRound =>
    simp only [winInv, applyStep, List.sum_append, List.sum_cons, List.sum_nil] at *
    linarith
  | award i =>
    simp only [winInv, applyStep] at *
    split
    · next hlt =>
      simp only [List.sum_nil]
      rw [sum_updAdd _ _ _ hlt.2]
      linarith
    · exact h
  | advanceRound r => exact h

theorem winInv_runSteps (steps : List EngineStep) (s : GameState) (h : winInv s) :
    winInv (runSteps steps s) := by
  induction steps generalizing s with
  | nil => exact h
  | cons st rest ih =>
    have h1 : runSteps (st :: rest) s = runSteps rest (applyStep st s) := rfl
    rw [h1]
    exact ih _ (winInv_applyStep st s h)

/-- C1: chip conservation.  For every engine step and every step
sequence the sum of stacks plus pots plus bets-this-round is unchanged;
the winnings-accounting invariant (sum of player winnings plus pots on
the table equals the total contributed to pots) is preserved, so after
a completed hand (no outstanding bets or pots) the final stacks total
the starting stacks and the player winnings total the contributions;
and conservation holds in particular for a recovered illegal action. -/
theorem chip_conservation :
    (∀ (st : EngineStep) (s : GameState), chipTotal (applyStep st s) = chipTotal s) ∧
    (∀ (steps : List EngineStep) (s : GameState),
      chipTotal (runSteps steps s) = chipTotal s) ∧
    (∀ (steps : List EngineStep) (s : GameState), winInv s → winInv (runSteps steps s)) ∧
    (∀ (steps : List EngineStep) (s : GameState),
      s.playerBet.sum = 0 → s.pots.sum = 0 →
      (runSteps steps s).playerBet.sum = 0 → (runSteps steps s).pots.sum = 0 →
      (runSteps steps s).stacks.sum = s.stacks.sum) ∧
    (∀ (s : GameState) (i : Nat) (a : AgentAction), legalAction s i a = false →
      chipTotal (applyStep (.agentAct i a) s) = chipTotal s) := by
  refine ⟨chipTotal_applyStep, chipTotal_runSteps, winInv_runSteps, ?_, ?_⟩
  · intro steps s h1 h2 h3 h4
    have hc := chipTotal_runSteps steps s
    simp only [chipTotal] at hc
    rw [h1, h2, h3, h4] at hc
    linarith
  · intro s i a _
    exact chipTotal_applyStep _ s

/-- Witness for C1: a concrete completed two-player hand, including a
recovered illegal action, conserves the total stack amount. -/
theorem chip_conservation_witness :
    demoState.playerBet.sum = 0 ∧ demoState.pots.sum = 0 ∧
    (runSteps demoSteps demoState).playerBet.sum = 0 ∧
    (runSteps demoSteps demoState).pots.sum = 0 ∧
    (runSteps demoSteps demoState).stacks.sum = demoState.stacks.sum := by
  have h1 : demoState.playerBet.sum = 0 := by norm_num [demoState]
  have h2 : demoState.pots.sum = 0 := by norm_num [demoState]
  have h3 : (runSteps demoSteps demoState).playerBet.sum = 0 := by
    norm_num [demoSteps, demoState, runSteps, applyStep, applyAgentAction, legalAction,
      moveToBet, applyFold, updAdd, stackOf, betOf, minLegalBet, currentBet, cmax, cmin]
  have h4 : (runSteps demoSteps demoState).pots.sum = 0 := by
    norm_num [demoSteps, demoState, runSteps, applyStep, applyAgentAction, legalAction,
      moveToBet, applyFold, updAdd, stackOf, betOf, minLegalBet, currentBet, cmax, cmin]
  exact ⟨h1, h2, h3, h4, chip_conservation.2.2.2.1 demoSteps demoState h1 h2 h3 h4⟩

/-- C6: illegal-action recovery.  An action failing the legality check
is not applied: the player is folded instead, one FailedAction event
records both the attempted and the substituted action, chips are
conserved, and the round goes on unchanged (the hand is not aborted). -/
theorem illegal_action_recovery (s : GameState) (i : Nat) (a : AgentAction)
    (hi : i < s.playerStatus.length) (hbad : legalAction s i a = false) :
    (applyAgentAction s i a).2 = .FailedAction a i .Fold ∧
    (applyAgentAction s i a).1.playerStatus.getD i .Active = .Folded ∧
    chipTotal (applyAgentAction s i a).1 = chipTotal s ∧
    (applyAgentAction s i a).1.round = s.round := by
  have hA : applyAgentAction s i a = (applyFold s i, .FailedAction a i .Fold) := by
    unfold applyAgentAction
    simp [hbad]
  rw [hA]
  refine ⟨rfl, ?_, chipTotal_applyFold s i, rfl⟩
  simp only [applyFold]
  exact getD_set_self _ _ _ _ hi

/-- Witness for C6: a bet exceeding the stack in the demo state is
substituted by a fold, recorded, and conserves chips. -/
theorem illegal_action_recovery_witness :
    0 < demoState.playerStatus.length ∧
    legalAction demoState 0 (.Bet 1000) = false ∧
    (applyAgentAction demoState 0 (.Bet 1000)).2 = .FailedAction (.Bet 1000) 0 .Fold ∧
    (applyAgentAction demoState 0 (.Bet 1000)).1.playerStatus.getD 0 .Active = .Folded ∧
    chipTotal (applyAgentAction demoState 0 (.Bet 1000)).1 = chipTotal demoState ∧
    (applyAgentAction demoState 0 (.Bet 1000)).1.round = demoState.round := by
  have hi : 0 < demoState.playerStatus.length := by simp [demoState]
  have hb : legalAction demoState 0 (.Bet 1000) = false := by
    norm_num [legalAction, minLegalBet, currentBet, betOf, stackOf, demoState, cmax]
  obtain ⟨e1, e2, e3, e4⟩ := illegal_action_recovery demoState 0 (.Bet 1000) hi hb
  exact ⟨hi, hb, e1, e2, e3, e4⟩

/-- C7: construction validation.  Every invalid configuration — empty
player list, a negative stack, blind or ante, or a dealer index not
below the player count — makes `GameState.new_starting` return an
error, so no partial GameState is produced. -/
theorem construction_validation (stacks0 : List Chips) (bb sb ante : Chips) (d : Nat)
    (hbad : stacks0 = [] ∨ (∃ x ∈ stacks0, x < 0) ∨ bb < 0 ∨ sb < 0 ∨ ante < 0 ∨
      stacks0.length ≤ d) :
    ∃ e, GameState.new_starting stacks0 bb sb ante d = .error e := by
  unfold GameState.new_starting
  split_ifs with h1 h2 h3 h4 h5
  · exact ⟨_, rfl⟩
  · exact ⟨_, rfl⟩
  · exact ⟨_, rfl⟩
  · exact ⟨_, rfl⟩
  · exact ⟨_, rfl⟩
  · exfalso
    rcases hbad with h | h | h | h | h | h
    · exact h1 (by simp [h])
    · obtain ⟨x, hx, hneg⟩ := h
      rw [List.any_eq_true] at h2
      · exact h2 ⟨x, hx, by simpa using hneg⟩
    · exact h3 (Or.inl h)
    · exact h3 (Or.inr h)
    · exact h4 h
    · exact h5 h

/-- Witness for C7: the empty player list is rejected. -/
theorem construction_validation_witness :
    ∃ e, GameState.new_starting [] 10 5 0 0 = .error e :=
  construction_validation [] 10 5 0 0 (Or.inl rfl)

/-! ## Win by fold -/

theorem getD_of_lt {α : Type} (l : List α) (i : Nat) (d : α) (h : i < l.length) :
    l.getD i d = l.get ⟨i, h⟩ := by
  simp [List.getD_eq_getElem?_getD, List.getElem?_eq_getElem h]

/-- C5: win by fold.  When only one player has not folded, the
orchestrator check ends the hand at once: the whole pot (pots plus
outstanding bets) is awarded to that player, the emitted Award event
carries no hand rank (no showdown evaluation happens), the round
becomes Complete, and chips are conserved. -/
theorem win_by_fold (s : GameState)
    (hlen1 : s.playerStatus.length = s.stacks.length)
    (hlen2 : s.playerStatus.length = s.playerWinnings.length)
    (h1 : livePlayers s = 1) :
    orchestratorCheck s = some (endByFold s) ∧
    (endByFold s).2 = .Award (s.playerStatus.findIdx notFolded) (potTotal s)
      (potTotal s) none ∧
    notFolded (s.playerStatus.getD (s.playerStatus.findIdx notFolded) .Folded) = true ∧
    (endByFold s).1.round = .Complete ∧
    chipTotal (endByFold s).1 = chipTotal s ∧
    (endByFold s).1.stacks.getD (s.playerStatus.findIdx notFolded) 0
      = s.stacks.getD (s.playerStatus.findIdx notFolded) 0 + potTotal s ∧
    (winInv s → winInv (endByFold s).1) := by
  have hne : s.playerStatus.filter notFolded ≠ [] := by
    intro hh
    rw [livePlayers, hh] at h1
    simp at h1
  have hex : ∃ x ∈ s.playerStatus, notFolded x := by
    obtain ⟨x, hx⟩ := List.exists_mem_of_ne_nil _ hne
    exact ⟨x, (List.mem_filter.mp hx).1, (List.mem_filter.mp hx).2⟩
  have hidx : s.playerStatus.findIdx notFolded < s.playerStatus.length :=
    List.findIdx_lt_length_of_exists hex
  have hstk : s.playerStatus.findIdx notFolded < s.stacks.length := hlen1 ▸ hidx
  have hwin : s.playerStatus.findIdx notFolded < s.playerWinnings.length := hlen2 ▸ hidx
  refine ⟨?_, rfl, ?_, rfl, ?_, ?_, ?_⟩
  · simp [orchestratorCheck, h1]
  · rw [getD_of_lt _ _ _ hidx, List.get_eq_getElem]
    exact List.findIdx_getElem
  · simp only [chipTotal, endByFold, potTotal, List.sum_nil]
    rw [sum_updAdd _ _ _ hstk, sum_map_zero]
    ring
  · simp only [endByFold]
    exact getD_updAdd_self _ _ _ hstk
  · intro hw
    simp only [winInv, endByFold, potTotal, List.sum_nil] at hw ⊢
    rw [sum_updAdd _ _ _ hwin]
    linarith

/-- Witness for C5: with everyone but player 1 folded, the demo state
ends at once with a rankless Award of the whole pot to player 1. -/
theorem win_by_fold_witness :
    demoWinState.playerStatus.length = demoWinState.stacks.length ∧
    demoWinState.playerStatus.length = demoWinState.playerWinnings.length ∧
    livePlayers demoWinState = 1 ∧
    orchestratorCheck demoWinState = some (endByFold demoWinState) ∧
    (endByFold demoWinState).2 = .Award (demoWinState.playerStatus.findIdx notFolded)
      (potTotal demoWinState) (potTotal demoWinState) none ∧
    (endByFold demoWinState).1.round = .Complete := by
  have e1 : demoWinState.playerStatus.length = demoWinState.stacks.length := rfl
  have e2 : demoWinState.playerStatus.length = demoWinState.playerWinnings.length := rfl
  have e3 : livePlayers demoWinState = 1 := rfl
  obtain ⟨a1, a2, _, a4, _, _, _⟩ := win_by_fold demoWinState e1 e2 e3
  exact ⟨e1, e2, e3, a1, a2, a4⟩

/-! ## Pot resolution -/

theorem sum_split_level (C : List Nat) (prev l : Nat) (hpl : prev < l)
    (h : ∀ c ∈ C, c ≤ prev ∨ l ≤ c) :
    (l - prev) * C.countP (fun c => l ≤ c) + (C.map (fun c => c - l)).sum
      = (C.map (fun c => c - prev)).sum := by
  induction C with
  | nil => simp
  | cons c C ih =>
    have hc := h c (List.mem_cons_self c C)
    have ihr := ih (fun x hx => h x (List.mem_cons_of_mem c hx))
    simp only [List.countP_cons, List.map_cons, List.sum_cons]
    by_cases hcl : l ≤ c
    · rw [if_pos (by simp [hcl]), Nat.mul_add, Nat.mul_one]
      omega
    · have hcp : c ≤ prev := hc.resolve_right hcl
      rw [if_neg (by simp [hcl]), Nat.add_zero]
      omega

theorem potsGo_amounts_sum (ps : List Contrib) (L : List Nat) :
    ∀ prev, L.Sorted (fun a b => a < b) →
    (∀ x ∈ L, prev < x) →
    (∀ p ∈ ps, p.committed ≤ prev ∨ p.committed ∈ L) →
    ((potsGo ps prev L).map (fun pot => pot.amount)).sum
      = ((ps.map (fun p => p.committed)).map (fun c => c - prev)).sum := by
  induction L with
  | nil =>
    intro prev _ _ h3
    simp only [potsGo, List.map_nil, List.sum_nil]
    symm
    rw [List.sum_eq_zero]
    intro x hx
    simp only [List.map_map, List.mem_map, Function.comp] at hx
    obtain ⟨p, hp, rfl⟩ := hx
    have := (h3 p hp).resolve_right (by simp)
    omega
  | cons l rest ih =>
    intro prev hsort h2 h3
    have hpl : prev < l := h2 l (List.mem_cons_self l rest)
    have hrest_gt : ∀ x ∈ rest, l < x := List.rel_of_sorted_cons hsort
    simp only [potsGo, List.map_cons, List.sum_cons]
    have ihr := ih l hsort.of_cons hrest_gt (fun p hp => by
      rcases h3 p hp with hle | hm
      · exact Or.inl (le_trans hle (le_of_lt hpl))
      · rcases List.mem_cons.mp hm with heq | hr
        · exact Or.inl (le_of_eq heq)
        · exact Or.inr hr)
    rw [ihr]
    have hsplit := sum_split_level (ps.map (fun p => p.committed)) prev l hpl
      (fun c hc => by
        obtain ⟨p, hp, rfl⟩ := List.mem_map.mp hc
        rcases h3 p hp with hle | hm
        · exact Or.inl hle
        · rcases List.mem_cons.mp hm with heq | hr
          · exact Or.inr (le_of_eq heq.symm)
          · exact Or.inr (le_of_lt (hrest_gt _ hr)))
    rw [← hsplit]
    congr 1
    unfold countAtLeast
    rw [List.countP_map]
    rfl

theorem levelsOf_sorted (ps : List Contrib) :
    (levelsOf ps).Sorted (fun a b => a < b) := by
  have hs : (levelsOf ps).Sorted (fun a b => a ≤ b) := List.sorted_insertionSort _ _
  have hnd : (levelsOf ps).Nodup := by
    have hdd := List.nodup_dedup ((ps.map (fun p => p.committed)).filter (fun c => 0 < c))
    exact ((List.perm_insertionSort _ _).nodup_iff).mpr hdd
  exact hs.lt_of_le hnd

theorem levelsOf_pos (ps : List Contrib) : ∀ x ∈ levelsOf ps, 0 < x := by
  intro x hx
  unfold levelsOf at hx
  rw [List.mem_insertionSort, List.mem_dedup, List.mem_filter] at hx
  simpa using hx.2

theorem mem_levelsOf (ps : List Contrib) (p : Contrib) (hp : p ∈ ps)
    (hpos : 0 < p.committed) : p.committed ∈ levelsOf ps := by
  unfold levelsOf
  rw [List.mem_insertionSort, List.mem_dedup, List.mem_filter]
  exact ⟨List.mem_map_of_mem _ hp, by simpa using hpos⟩

theorem buildPots_amount_sum (ps : List Contrib) :
    ((buildPots ps).map (fun pot => pot.amount)).sum
      = (ps.map (fun p => p.committed)).sum := by
  unfold buildPots
  rw [potsGo_amounts_sum ps (levelsOf ps) 0 (levelsOf_sorted ps) (levelsOf_pos ps)
    (fun p hp => by
      by_cases h : p.committed = 0
      · exact Or.inl (by omega)
      · exact Or.inr (mem_levelsOf ps p hp (Nat.pos_of_ne_zero h)))]
  simp only [Nat.sub_zero]
  rw [List.map_id']

theorem potsGo_eligible (ps : List Contrib) (L : List Nat) :
    ∀ prev, ∀ pot ∈ potsGo ps prev L, pot.eligible = eligibleAt ps pot.level := by
  induction L with
  | nil =>
    intro prev pot h
    simp [potsGo] at h
  | cons l rest ih =>
    intro prev pot h
    rcases List.mem_cons.mp h with heq | hr
    · rw [heq]
    · exact ih l pot hr

theorem mem_eligibleAt (ps : List Contrib) (l i : Nat) :
    i ∈ eligibleAt ps l ↔
      i < ps.length ∧ l ≤ (ps.getD i default).committed ∧
        (ps.getD i default).folded = false := by
  unfold eligibleAt
  rw [List.mem_filter, List.mem_range]
  constructor
  · rintro ⟨h1, h2⟩
    simp only [Bool.and_eq_true, decide_eq_true_eq, Bool.not_eq_true'] at h2
    exact ⟨h1, h2.1, h2.2⟩
  · rintro ⟨h1, h2, h3⟩
    refine ⟨h1, ?_⟩
    simp only [Bool.and_eq_true, decide_eq_true_eq, Bool.not_eq_true']
    exact ⟨h2, h3⟩

theorem sum_map_constN {α : Type} (l : List α) (v : Nat) :
    (l.map (fun _ => v)).sum = l.length * v := by
  induction l with
  | nil => simp
  | cons a t ih =>
    simp only [List.map_cons, List.sum_cons, List.length_cons, ih, Nat.succ_mul]
    omega

theorem awardShares_sum (ps : List Contrib) (pot : Pot) (h : potWinners ps pot ≠ []) :
    ((awardShares ps pot).map (fun x => x.2)).sum = pot.amount := by
  unfold awardShares
  cases hw : potWinners ps pot with
  | nil => exact absurd hw h
  | cons w ws =>
    simp only [List.map_cons, List.sum_cons, List.map_map]
    have hconst : ws.map ((fun x : Nat × Nat => x.2) ∘
        (fun i => (i, pot.amount / (ws.length + 1))))
        = ws.map (fun _ => pot.amount / (ws.length + 1)) := rfl
    rw [hconst, sum_map_constN]
    have hdm := Nat.div_add_mod pot.amount (ws.length + 1)
    rw [Nat.succ_mul] at hdm
    omega

theorem awardShares_mem (ps : List Contrib) (pot : Pot) :
    ∀ x ∈ awardShares ps pot, x.1 ∈ potWinners ps pot := by
  intro x hx
  unfold awardShares at hx
  cases hw : potWinners ps pot with
  | nil => rw [hw] at hx; simp at hx
  | cons w ws =>
    rw [hw] at hx
    simp only [List.mem_cons] at hx
    rcases hx with heq | hx
    · rw [heq]
      exact List.mem_cons_self w ws
    · obtain ⟨i, hi, rfl⟩ := List.mem_map.mp hx
      exact List.mem_cons_of_mem _ hi

theorem potWinners_spec (ps : List Contrib) (pot : Pot) :
    ∀ w ∈ potWinners ps pot,
      w ∈ pot.eligible ∧ (ps.getD w default).rankVal = maxRankOf ps pot.eligible := by
  intro w hw
  have hm := List.mem_filter.mp hw
  exact ⟨hm.1, by simpa using hm.2⟩

/-- C2: pot resolution.  Pots are formed by walking the distinct total
commitments ascending, each pot holding the incremental amount from all
players committed at least that much; the pot amounts partition the
total contributions exactly; a pot's eligible set is exactly the
non-folded players committed at least its level; each pot is split
among its maximum-rank eligible players, the shares reconciling to the
pot amount with the remainder given to the first winner in seat order;
and for all-in stacks [50, 100, 200] the pots are 150/100/100 with
eligible sets {0,1,2}/{1,2}/{2}, reconciling against the 350 total. -/
theorem pot_resolution :
    (∀ ps : List Contrib,
      ((buildPots ps).map (fun pot => pot.amount)).sum
        = (ps.map (fun p => p.committed)).sum) ∧
    (∀ (ps : List Contrib), ∀ pot ∈ buildPots ps, ∀ i : Nat,
      i ∈ pot.eligible ↔
        (i < ps.length ∧ pot.level ≤ (ps.getD i default).committed ∧
          (ps.getD i default).folded = false)) ∧
    (∀ (ps : List Contrib) (pot : Pot), potWinners ps pot ≠ [] →
      ((awardShares ps pot).map (fun x => x.2)).sum = pot.amount) ∧
    (∀ (ps : List Contrib) (pot : Pot), ∀ x ∈ awardShares ps pot,
      x.1 ∈ potWinners ps pot) ∧
    (∀ (ps : List Contrib) (pot : Pot), ∀ w ∈ potWinners ps pot,
      w ∈ pot.eligible ∧ (ps.getD w default).rankVal = maxRankOf ps pot.eligible) ∧
    (buildPots [⟨50, false, 0⟩, ⟨100, false, 1⟩, ⟨200, false, 2⟩]
      = [⟨50, 150, [0, 1, 2]⟩, ⟨100, 100, [1, 2]⟩, ⟨200, 100, [2]⟩] ∧
      ((buildPots [⟨50, false, 0⟩, ⟨100, false, 1⟩, ⟨200, false, 2⟩]).map
        (fun pot => pot.amount)).sum = 50 + 100 + 200) := by
  refine ⟨buildPots_amount_sum, ?_, awardShares_sum, awardShares_mem, potWinners_spec,
    by decide, by decide⟩
  intro ps pot hpot i
  rw [potsGo_eligible ps (levelsOf ps) 0 pot hpot]
  exact mem_eligibleAt ps pot.level i

/-- Witness for C2: splitting the 151-chip main pot of the [50,100,200]
example between two tied winners pays 76 and 75, reconciling exactly. -/
theorem pot_resolution_witness :
    potWinners [⟨50, false, 5⟩, ⟨100, false, 5⟩, ⟨200, false, 2⟩] ⟨50, 151, [0, 1, 2]⟩
      ≠ [] ∧
    ((awardShares [⟨50, false, 5⟩, ⟨100, false, 5⟩, ⟨200, false, 2⟩]
      ⟨50, 151, [0, 1, 2]⟩).map (fun x => x.2)).sum = 151 := by
  have h : potWinners [⟨50, false, 5⟩, ⟨100, false, 5⟩, ⟨200, false, 2⟩]
      ⟨50, 151, [0, 1, 2]⟩ ≠ [] := by decide
  exact ⟨h, pot_resolution.2.2.1 _ _ h⟩

/-! ## Hand evaluator -/

/-- C4: the hand evaluator is a pure function of the card set: on any
five-to-seven card hand its value is independent of the order in which
the cards were inserted. -/
theorem rank_order_independent (l1 l2 : List Card)
    (_h5 : 5 ≤ l1.length) (_h7 : l1.length ≤ 7) (hp : l1.Perm l2) :
    Hand.rank l1 = Hand.rank l2 := by
  have hs : sortCards l1 = sortCards l2 := by
    unfold sortCards
    congr 1
    have hp2 : (List.insertionSort (fun a b => a ≤ b) (l1.map cardKey)).Perm
        (List.insertionSort (fun a b => a ≤ b) (l2.map cardKey)) :=
      ((List.perm_insertionSort _ _).trans (hp.map cardKey)).trans
        (List.perm_insertionSort _ _).symm
    have hs1 : (List.insertionSort (fun a b => a ≤ b) (l1.map cardKey)).Sorted
        (fun a b => a ≤ b) := List.sorted_insertionSort _ _
    have hs2 : (List.insertionSort (fun a b => a ≤ b) (l2.map cardKey)).Sorted
        (fun a b => a ≤ b) := List.sorted_insertionSort _ _
    exact List.eq_of_perm_of_sorted hp2 hs1 hs2
  unfold Hand.rank
  rw [hs]

/-- Witness for C4: a seven-card hand and its reversal rank equally. -/
theorem rank_order_independent_witness :
    5 ≤ aceLowSeven.length ∧ aceLowSeven.length ≤ 7 ∧
    aceLowSeven.Perm aceLowSeven.reverse ∧
    Hand.rank aceLowSeven = Hand.rank aceLowSeven.reverse := by
  have h5 : 5 ≤ aceLowSeven.length := by decide
  have h7 : aceLowSeven.length ≤ 7 := by decide
  have hp : aceLowSeven.Perm aceLowSeven.reverse := (List.reverse_perm aceLowSeven).symm
  exact ⟨h5, h7, hp, rank_order_independent _ _ h5 h7 hp⟩

/-- C3: hand-rank comparison reproduces the reference strength order.
The category component dominates the comparison; within one category
the comparison is decided by the tiebreak component; one concrete
seven-card set per category comes out in exactly the reference chain
straight flush > quads > full house > flush > straight > trips >
two pair > pair > high card; the ace-low straight A-2-3-4-5 is ranked
as a five-high straight (below the six-high straight); and within a
category the full tiebreak tuple decides (a higher second pair beats a
better kicker; kickers break pair ties). -/
theorem hand_ranking_total_order :
    (∀ cs1 cs2 : List Card,
      handCategory (Hand.rank cs1) < handCategory (Hand.rank cs2) →
        Hand.rank cs1 < Hand.rank cs2) ∧
    (∀ cs1 cs2 : List Card,
      handCategory (Hand.rank cs1) = handCategory (Hand.rank cs2) →
        (Hand.rank cs1 < Hand.rank cs2 ↔
          handTiebreak (Hand.rank cs1) < handTiebreak (Hand.rank cs2))) ∧
    (handCategory (Hand.rank sfSeven) = catStraightFlush ∧
      handCategory (Hand.rank quadsSeven) = catQuads ∧
      handCategory (Hand.rank fullHouseSeven) = catFullHouse ∧
      handCategory (Hand.rank flushSeven) = catFlush ∧
      handCategory (Hand.rank straightSeven) = catStraight ∧
      handCategory (Hand.rank tripsSeven) = catTrips ∧
      handCategory (Hand.rank twoPairSeven) = catTwoPair ∧
      handCategory (Hand.rank pairSeven) = catPair ∧
      handCategory (Hand.rank highCardSeven) = catHighCard ∧
      Hand.rank quadsSeven < Hand.rank sfSeven ∧
      Hand.rank fullHouseSeven < Hand.rank quadsSeven ∧
      Hand.rank flushSeven < Hand.rank fullHouseSeven ∧
      Hand.rank straightSeven < Hand.rank flushSeven ∧
      Hand.rank tripsSeven < Hand.rank straightSeven ∧
      Hand.rank twoPairSeven < Hand.rank tripsSeven ∧
      Hand.rank pairSeven < Hand.rank twoPairSeven ∧
      Hand.rank highCardSeven < Hand.rank pairSeven) ∧
    (handCategory (Hand.rank aceLowSeven) = catStraight ∧
      Hand.rank aceLowSeven = catStraight * 13 ^ 5 + enc5 [3, 0, 0, 0, 0] ∧
      Hand.rank aceLowSeven < Hand.rank sixHighStraightSeven) ∧
    (handCategory (Hand.rank twoPairKKQQ2) = catTwoPair ∧
      handCategory (Hand.rank twoPairKKJJA) = catTwoPair ∧
      Hand.rank twoPairKKJJA < Hand.rank twoPairKKQQ2 ∧
      handCategory (Hand.rank pairJacksAce) = catPair ∧
      handCategory (Hand.rank pairJacksKing) = catPair ∧
      Hand.rank pairJacksKing < Hand.rank pairJacksAce) := by
  refine ⟨?_, ?_, by decide, by decide, by decide⟩
  · intro cs1 cs2 h
    unfold handCategory at h
    by_contra hle
    push_neg at hle
    have hd := Nat.div_le_div_right (c := 13 ^ 5) hle
    omega
  · intro cs1 cs2 h
    unfold handCategory at h
    unfold handTiebreak
    have h1 := Nat.div_add_mod (Hand.rank cs1) (13 ^ 5)
    have h2 := Nat.div_add_mod (Hand.rank cs2) (13 ^ 5)
    have hm1 : Hand.rank cs1 % 13 ^ 5 < 13 ^ 5 := Nat.mod_lt _ (by norm_num)
    have hm2 : Hand.rank cs2 % 13 ^ 5 < 13 ^ 5 := Nat.mod_lt _ (by norm_num)
    omega

/-- Witness for C3: the category-dominance part applied to the
concrete pair and straight hands. -/
theorem hand_ranking_total_order_witness :
    handCategory (Hand.rank pairSeven) < handCategory (Hand.rank straightSeven) ∧
    Hand.rank pairSeven < Hand.rank straightSeven := by
  have h : handCategory (Hand.rank pairSeven) < handCategory (Hand.rank straightSeven) := by
    decide
  exact ⟨h, hand_ranking_total_order.1 pairSeven straightSeven h⟩

/-! ## Monte Carlo estimator -/

/-- C8: degenerate equity queries fail fast.  Fewer than two hands, or
too few unseen cards to complete the board to five and every short
hand to two hole cards (per-hand hole deficits summed, sampling being
without replacement), make `MonteCarloGame.new` return an error; no
game (hence no estimate) is produced. -/
theorem monte_carlo_fail_fast (hands : List (List Card)) (board : List Card)
    (hbad : hands.length < 2 ∨
      52 - (knownCards hands board).length < neededCards hands board) :
    (∃ e, MonteCarloGame.new hands board = .error e) ∧
    ∀ g, MonteCarloGame.new hands board ≠ .ok g := by
  have herr : ∃ e, MonteCarloGame.new hands board = .error e := by
    unfold MonteCarloGame.new
    split_ifs with hc1 hc2
    · exact ⟨_, rfl⟩
    · exact ⟨_, rfl⟩
    · exfalso
      rcases hbad with h | h
      · exact hc1 h
      · exact hc2 h
  obtain ⟨e, he⟩ := herr
  exact ⟨⟨e, he⟩, fun g hg => by simp [he] at hg⟩

/-- Witness for C8: a single-hand query is rejected, and so is the
24-one-card-hand query whose completion needs 29 draws from only 28
unseen cards. -/
theorem monte_carlo_fail_fast_witness :
    (([[]] : List (List Card)).length < 2 ∧
      (∃ e, MonteCarloGame.new [[]] [] = .error e) ∧
      ∀ g, MonteCarloGame.new [[]] [] ≠ .ok g) ∧
    (52 - (knownCards exhaustHands []).length < neededCards exhaustHands [] ∧
      (∃ e, MonteCarloGame.new exhaustHands [] = .error e) ∧
      ∀ g, MonteCarloGame.new exhaustHands [] ≠ .ok g) := by
  have h1 : ([[]] : List (List Card)).length < 2 := by decide
  have h2 : 52 - (knownCards exhaustHands []).length < neededCards exhaustHands [] := by
    decide
  obtain ⟨a1, b1⟩ := monte_carlo_fail_fast [[]] [] (Or.inl h1)
  obtain ⟨a2, b2⟩ := monte_carlo_fail_fast exhaustHands [] (Or.inr h2)
  exact ⟨⟨h1, a1, b1⟩, ⟨h2, a2, b2⟩⟩

/-! ## Equity accounting -/

theorem foldr_max_mem (l : List Nat) (h : l ≠ []) : l.foldr Nat.max 0 ∈ l := by
  induction l with
  | nil => exact absurd rfl h
  | cons a t ih =>
    cases t with
    | nil => simp
    | cons b t2 =>
      have ihm := ih (by simp)
      simp only [List.foldr_cons] at ihm ⊢
      by_cases hab : a ≤ b.max (List.foldr Nat.max 0 t2)
      · have hmx : a.max (b.max (List.foldr Nat.max 0 t2))
            = b.max (List.foldr Nat.max 0 t2) := Nat.max_eq_right hab
        rw [hmx]
        exact List.mem_cons_of_mem _ ihm
      · have hmx : a.max (b.max (List.foldr Nat.max 0 t2)) = a :=
          Nat.max_eq_left (Nat.le_of_not_le hab)
        rw [hmx]
        exact List.mem_cons_self a _

theorem sum_map_ite_rat (l : List Nat) (m : Nat) (x : Rat) :
    (l.map (fun r => if r = m then x else 0)).sum
      = (l.countP (fun r => r = m) : Rat) * x := by
  induction l with
  | nil => simp
  | cons a t ih =>
    simp only [List.map_cons, List.sum_cons, List.countP_cons, ih]
    by_cases h : a = m
    · rw [if_pos h, if_pos (by simp [h])]
      push_cast
      ring
    · rw [if_neg h, if_neg (by simp [h])]
      push_cast
      ring

theorem creditsOf_sum (results : List Nat) (h : results ≠ []) :
    (creditsOf results).sum = 1 := by
  have hmem : results.foldr Nat.max 0 ∈ results := foldr_max_mem results h
  have hk : 0 < results.countP (fun r => r = results.foldr Nat.max 0) :=
    List.countP_pos_iff.mpr ⟨_, hmem, by simp⟩
  have hcast : (results.countP (fun r => r = results.foldr Nat.max 0) : Rat) ≠ 0 :=
    Nat.cast_ne_zero.mpr (Nat.pos_iff_ne_zero.mp hk)
  have key := sum_map_ite_rat results (results.foldr Nat.max 0)
    ((1 : Rat) / (results.countP (fun r => r = results.foldr Nat.max 0) : Rat))
  calc (creditsOf results).sum
      = (results.map (fun r => if r = results.foldr Nat.max 0 then
          (1 : Rat) / (results.countP (fun x => x = results.foldr Nat.max 0) : Rat)
          else 0)).sum := rfl
    _ = (results.countP (fun r => r = results.foldr Nat.max 0) : Rat) *
          ((1 : Rat) / (results.countP (fun r => r = results.foldr Nat.max 0) : Rat)) := key
    _ = 1 := by rw [mul_one_div, div_self hcast]

theorem credit_sum_split (iters : List (List Nat)) (i : Nat) :
    (iters.map (fun res => creditAt res i)).sum
      = (soloWins iters i : Rat) + tieCredit iters i := by
  induction iters with
  | nil => simp [soloWins, tieCredit]
  | cons res rest ih =>
    simp only [List.map_cons, List.sum_cons, soloWins, tieCredit, List.countP_cons,
      List.filter_cons] at ih ⊢
    by_cases h : creditAt res i = 1
    · rw [if_pos (by simp [h]), if_neg (by simp [h])]
      push_cast
      rw [h]
      linarith [ih]
    · rw [if_neg (by simp [h]), if_pos (by simp [h])]
      simp only [List.map_cons, List.sum_cons]
      push_cast
      linarith [ih]

/-- C9: equity accounting.  In each iteration the credit distributed
across all hands sums to exactly one (ties split the unit equally among
the tied leaders); and the equity reported for hand `i` is its outright
wins plus its accumulated tie credit (one over the number of tied
leaders, per tied iteration), divided by the iteration count. -/
theorem equity_accounting :
    (∀ results : List Nat, results ≠ [] → (creditsOf results).sum = 1) ∧
    (∀ (iters : List (List Nat)) (i : Nat),
      equityOf iters i = ((soloWins iters i : Rat) + tieCredit iters i) / iters.length) := by
  refine ⟨creditsOf_sum, ?_⟩
  intro iters i
  unfold equityOf
  rw [credit_sum_split]

/-- Witness for C9: a three-hand iteration with two tied leaders
distributes exactly one unit of credit. -/
theorem equity_accounting_witness :
    ([7, 7, 3] : List Nat) ≠ [] ∧ (creditsOf [7, 7, 3]).sum = 1 := by
  have h : ([7, 7, 3] : List Nat) ≠ [] := by decide
  exact ⟨h, equity_accounting.1 [7, 7, 3] h⟩

end RsPoker
